import Mathlib

/-!
Verification development for the `colour.gamut` module: a convex-hull colour
gamut with a Feito-Torres point-in-polyhedron membership test, batch traversal
of point arrays, hull facet orientation fixing, and ray/boundary intersection.

The geometry of the source operates on numpy float arrays; here it is embedded
over exact rationals.  Comparisons that the source performs on square roots
(vector norms) are encoded by their squares, which is an equivalence for the
comparisons involved; bridging lemmas against `Real.sqrt` certify those
encodings.  All definitions follow the source line by line; deviations forced
by the change of number representation are noted in comments.
-/

set_option linter.unusedVariables false

-- Batteries marks the rational-number field operations `@[irreducible]`,
-- which blocks `decide`-style kernel evaluation of the embedded geometry on
-- concrete inputs.  Restore the definitional behaviour (the kernel itself
-- ignores reducibility attributes, so this changes nothing about soundness).
set_option allowUnsafeReducibility true

attribute [semireducible] Rat.add Rat.sub Rat.mul Rat.div Rat.neg Rat.inv Rat.ofScientific

/-- A 3-D point / vector with exact rational coordinates (models one row of a
numpy `(3,)` float array). -/
structure V3 where
  x : ℚ
  y : ℚ
  z : ℚ
deriving DecidableEq, Repr

instance : Add V3 := ⟨fun a b => ⟨a.x + b.x, a.y + b.y, a.z + b.z⟩⟩

instance : Sub V3 := ⟨fun a b => ⟨a.x - b.x, a.y - b.y, a.z - b.z⟩⟩

instance : Neg V3 := ⟨fun a => ⟨-a.x, -a.y, -a.z⟩⟩

instance : Zero V3 := ⟨⟨0, 0, 0⟩⟩

/-- Scalar multiple of a vector. -/
def smulV (q : ℚ) (a : V3) : V3 := ⟨q * a.x, q * a.y, q * a.z⟩

/-- `np.dot` on 3-vectors. -/
def dotV (a b : V3) : ℚ := a.x * b.x + a.y * b.y + a.z * b.z

/-- `np.cross` on 3-vectors. -/
def crossV (a b : V3) : V3 :=
  ⟨a.y * b.z - a.z * b.y, a.z * b.x - a.x * b.z, a.x * b.y - a.y * b.x⟩

/-- Squared Euclidean norm; the source computes `np.linalg.norm a`, i.e. the
square root of this quantity. -/
def normSq (a : V3) : ℚ := dotV a a

/-- Sum of the rows of a list of vectors (`points.sum(0)`). -/
def vsum (l : List V3) : V3 := l.foldl (· + ·) 0

/-- Decidable encoding of `Real.sqrt A + Real.sqrt B ≤ Real.sqrt C` for
nonnegative rationals, used to translate the source's
`norm(u)/norm(w) + norm(v)/norm(w) <= 1` comparison exactly. -/
def sqrtSumLe (A B C : ℚ) : Bool :=
  decide (A + B ≤ C) && decide (4 * A * B ≤ (C - A - B) ^ 2)

namespace Gamut

/-- `Gamut.in_line(line, point, true_interior)`: the source's point-on-segment
test.  `line` is the ordered pair `(A, B)`; the collinearity check is the
source's `np.linalg.det([[1,1,1], b, p]) != 0`, and the final length check
`norm(p) > norm(b)` is encoded on squared norms. -/
def in_line (l0 l1 point : V3) (true_interior : Bool) : Bool :=
  -- `if true_interior and (tuple(point) == tuple(line[0]) or ...): return False`
  if true_interior && (decide (point = l0) || decide (point = l1)) then false
  else
    let b := l1 - l0
    let p := point - l0
    -- `matrix = [[1,1,1], b, p]; if det(matrix) != 0: return False`
    -- det of that matrix equals (1,1,1) . (b x p).
    if dotV ⟨1, 1, 1⟩ (crossV b p) ≠ 0 then false
    -- `if np.dot(p, b) < 0: return False`
    else if dotV p b < 0 then false
    -- `if np.linalg.norm(p) > np.linalg.norm(b): return False` (squares compared)
    else if normSq b < normSq p then false
    else true

/-- `Gamut.in_triangle(triangle, P, true_interior)`: the source's barycentric
point-in-triangle test.  The final area-ratio comparison
`norm(c x p)/denom + norm(b x p)/denom <= 1` (with `denom = norm(b x c)`) is
encoded via `sqrtSumLe` on squared norms; when `denom` is zero the source's
float division produces an infinity or NaN whose comparison with 1 is false,
which the embedding makes explicit. -/
def in_triangle (t0 t1 t2 P : V3) (true_interior : Bool) : Bool :=
  -- true-interior option: reject P on any of the three edges
  if true_interior && (in_line t0 t1 P false || in_line t1 t2 P false ||
      in_line t0 t2 P false) then false
  else
    let b := t1 - t0
    let c := t2 - t0
    let p := P - t0
    -- degenerate triangles fall back to in_line; note the source passes the
    -- LOCAL vector `p` (not `P`) as the point in these three branches
    if t0 = t1 then in_line t0 t1 p false
    else if t0 = t2 then in_line t0 t2 p false
    else if t1 = t2 then in_line t1 t2 p false
    else
      let b_x_c := crossV b c
      -- `if np.dot(b_x_c, p) != 0: return False` (coplanarity)
      if dotV b_x_c p ≠ 0 then false
      else
        let c_x_p := crossV c p
        let c_x_b := crossV c b
        if dotV c_x_p c_x_b < 0 then false
        else
          let b_x_p := crossV b p
          if dotV b_x_p b_x_c < 0 then false
          -- `r = norm(c_x_p)/denom; t = norm(b_x_p)/denom; return r + t <= 1`
          else if normSq b_x_c = 0 then false
          else sqrtSumLe (normSq c_x_p) (normSq b_x_p) (normSq b_x_c)

/-- `Gamut.is_coplanar(p)`: fewer than 4 points are coplanar; otherwise the
scalar triple product of the three edge vectors from `p[0]` must be exactly
zero.  With more than 4 points the source (like this embedding) only inspects
the first four. -/
def is_coplanar (p : List V3) : Bool :=
  match p with
  | p0 :: p1 :: p2 :: p3 :: _ =>
    decide (dotV (p3 - p0) (crossV (p1 - p0) (p2 - p0)) = 0)
  | _ => true

/-- Duplicate removal preserving first occurrences (the `uniques` loop of
`Gamut.true_shape`). -/
def uniquify (points : List V3) : List V3 :=
  points.foldl (fun acc a => if a ∈ acc then acc else acc ++ [a]) []

/-- `Gamut.true_shape(points)`: reduce at most 4 coplanar points to the
minimal convex figure they describe.  The source deletes row `i` and asks
whether row `i` lies on the remaining segment / in the remaining triangle,
for `i` increasing; `uniques` with 5 or more entries cannot arise from the
callers (`interior` receives at most 4 points). -/
def true_shape (points : List V3) : List V3 :=
  let uniques := uniquify points
  match uniques with
  | [u0, u1, u2] =>
    if in_line u1 u2 u0 false then [u1, u2]
    else if in_line u0 u2 u1 false then [u0, u2]
    else if in_line u0 u1 u2 false then [u0, u1]
    else [u0, u1, u2]
  | [u0, u1, u2, u3] =>
    if in_triangle u1 u2 u3 u0 false then [u1, u2, u3]
    else if in_triangle u0 u2 u3 u1 false then [u0, u2, u3]
    else if in_triangle u0 u1 u3 u2 false then [u0, u1, u3]
    else if in_triangle u0 u1 u2 u3 false then [u0, u1, u2]
    else [u0, u1, u2, u3]
  | other => other

/-- `np.allclose(true_shape, q)` with numpy's default tolerances
`rtol = 1e-05`, `atol = 1e-08`: componentwise `|a - b| <= atol + rtol*|b|`. -/
def allclose (a b : V3) : Bool :=
  decide (|a.x - b.x| ≤ 1 / 100000000 + (1 / 100000) * |b.x|) &&
  decide (|a.y - b.y| ≤ 1 / 100000000 + (1 / 100000) * |b.y|) &&
  decide (|a.z - b.z| ≤ 1 / 100000000 + (1 / 100000) * |b.z|)

/-- Closed-tetrahedron membership, modelling the external
`spatial.Delaunay(t).find_simplex(p) >= 0` call of `Gamut.in_tetrahedron`
(the spec treats the scipy triangulation as an opaque, correct black box):
`p` lies in the closed convex hull of a nondegenerate tetrahedron iff its
barycentric coordinates are nonnegative and sum to at most 1, decided here by
Cramer determinants.  For a degenerate (zero-volume) input the scipy call
fails; that case is unreachable from `interior`, which routes coplanar point
sets elsewhere, and is mapped to `false`. -/
def delaunay_contains (t0 t1 t2 t3 p : V3) : Bool :=
  let D := dotV (t1 - t0) (crossV (t2 - t0) (t3 - t0))
  let a := dotV (p - t0) (crossV (t2 - t0) (t3 - t0))
  let b := dotV (t1 - t0) (crossV (p - t0) (t3 - t0))
  let c := dotV (t1 - t0) (crossV (t2 - t0) (p - t0))
  decide (D ≠ 0) && decide (0 ≤ a * D) && decide (0 ≤ b * D) &&
    decide (0 ≤ c * D) && decide ((a + b + c) * D ≤ D ^ 2)

/-- `Gamut.in_tetrahedron(t, p, true_interior)`: when the surface is excluded,
reject `p` lying on any of the four bounding triangles (`np.delete(t, k, 0)`),
then test closed containment. -/
def in_tetrahedron (t0 t1 t2 t3 p : V3) (true_interior : Bool) : Bool :=
  if true_interior && (in_triangle t1 t2 t3 p false || in_triangle t0 t2 t3 p false ||
      in_triangle t0 t1 t3 p false || in_triangle t0 t1 t2 p false) then false
  else delaunay_contains t0 t1 t2 t3 p

/-- `Gamut.in_polygon(pts, q, true_interior)`: split the coplanar quad along
the diagonal `pts[1]pts[2]` into two triangles. -/
def in_polygon (p0 p1 p2 p3 q : V3) (true_interior : Bool) : Bool :=
  if true_interior then
    in_triangle p0 p1 p2 q true || in_line p1 p2 q true || in_triangle p1 p2 p3 q true
  else
    in_triangle p0 p1 p2 q false || in_triangle p1 p2 p3 q false

/-- `Gamut.interior(pts, q, true_interior)`: dispatch on the true shape of at
most 4 points.  The non-coplanar branch requires 4 points (3 or fewer points
are always coplanar); `interior` is never called with more than 4. -/
def interior (pts : List V3) (q : V3) (true_interior : Bool) : Bool :=
  if is_coplanar pts then
    match true_shape pts with
    | [a] => allclose a q
    | [a, b] => in_line a b q false
    | [a, b, c] => in_triangle a b c q true_interior
    | [a, b, c, d] => in_polygon a b c d q true_interior
    | _ => false
  else
    match pts with
    | t0 :: t1 :: t2 :: t3 :: _ => in_tetrahedron t0 t1 t2 t3 q true_interior
    | _ => false

/-- The exact 4x4 determinant built by `Gamut.sign`: columns are the four
points in homogeneous coordinates (rows = x, y, z coordinates, final row of
ones), expanded along the final row of ones. -/
def tdet (t0 t1 t2 t3 : V3) : ℚ :=
  -(dotV t1 (crossV t2 t3)) + dotV t0 (crossV t2 t3)
    - dotV t0 (crossV t1 t3) + dotV t0 (crossV t1 t2)

/-- `Gamut.sign(t)`: `int(np.sign(det(matrix))) * -1`. -/
def sign (t0 t1 t2 t3 : V3) : ℤ :=
  (if 0 < tdet t0 t1 t2 t3 then 1 else if tdet t0 t1 t2 t3 < 0 then -1 else 0) * (-1)

end Gamut

/-- A hull facet: a triple of indices into the point array (one row of
`hull.simplices`; scipy's 3-D hulls always triangulate facets, so each row
has exactly three indices). -/
structure Tri where
  i0 : ℕ
  i1 : ℕ
  i2 : ℕ
deriving DecidableEq, Repr

/-- The state of a constructed `Gamut` that the query methods read:
`hull.points` (the full coordinate array), `hull.vertices` (indices of the
extreme points) and `hull.simplices` (triangulated facets). -/
structure Gamut where
  points : List V3
  vertices : List ℕ
  simplices : List Tri
deriving DecidableEq, Repr

namespace Gamut

/-- `self.hull.points[index]`: coordinate lookup for one index (indices of a
valid hull are always in range; out-of-range lookups default to the origin). -/
def coord (g : Gamut) (i : ℕ) : V3 := g.points.getD i ⟨0, 0, 0⟩

/-- `Gamut.get_coordinates(indices)`. -/
def get_coordinates (g : Gamut) (indices : List ℕ) : List V3 :=
  indices.map (coord g)

/-- `Gamut.center_of_mass(points)`: returns the arithmetic mean of the rows
AND the array as the source's in-place loop leaves it (each row with the mean
subtracted) — the Python function mutates its argument, which the embedding
captures in the second component. -/
def center_of_mass (points : List V3) : V3 × List V3 :=
  let cm := smulV (1 / (points.length : ℚ)) (vsum points)
  (cm, points.map (fun p => p - cm))

/-- `Gamut.fix_orientation()`: recompute the center of mass of the vertex
coordinates (on a fresh copy, so its in-place mutation is invisible), then
swap `simplex[0]` and `simplex[2]` of every facet whose normal
`(f1-f0) x (f2-f0)` has negative dot product with `f0 - c`. -/
def fix_orientation (g : Gamut) : Gamut :=
  let c := (center_of_mass (get_coordinates g g.vertices)).1
  { g with simplices := g.simplices.map (fun s =>
      let f0 := coord g s.i0
      let f1 := coord g s.i1
      let f2 := coord g s.i2
      let normal := crossV (f1 - f0) (f2 - f0)
      if dotV (f0 - c) normal < 0 then ⟨s.i2, s.i1, s.i0⟩ else s) }

/-- Accumulator state of the Feito-Torres loop: the (half-integer) inclusion
counter and the `v_plus` / `v_minus` bookkeeping lists.  The lists hold
rational values because the source appends vertex *indices* (`el[0]`,
`el[-1]`) on the first/last-vertex paths but appends `vertex[j]` — the
y-*coordinate* of the facet's middle vertex, `vertex` being a coordinate row —
on the middle-vertex path; `np.in1d` then compares all of them by numeric
value. -/
structure FTState where
  inclusion : ℚ
  vplus : List ℚ
  vminus : List ℚ
deriving DecidableEq, Repr

/-- The guarded add-and-record pattern that `feito_torres` repeats for the
facet's first vertex, last vertex, and (with the y-coordinate standing in for
the index, see `ftStep`) middle vertex: if the edge test `cond` holds and the
value is not yet recorded for the matching orientation sign (`np.in1d`), add
the sign to the inclusion counter and record the value in `v_plus` or
`v_minus`. -/
def bookkeep (cond : Bool) (s : ℤ) (v : ℚ) (st : FTState) : FTState :=
  if cond && ((decide (0 < s) && !(decide (v ∈ st.vplus))) ||
      (decide (s < 0) && !(decide (v ∈ st.vminus)))) then
    { inclusion := st.inclusion + (s : ℚ)
      vplus := if s < 0 then st.vplus else st.vplus ++ [v]
      vminus := if s < 0 then st.vminus ++ [v] else st.vminus }
  else st

/-- One iteration of the Feito-Torres facet loop (everything after the
immediate-return facet test).  `origin` is the coordinate origin. -/
def ftStep (g : Gamut) (P : V3) (st : FTState) (el : Tri) : FTState :=
  let origin : V3 := ⟨0, 0, 0⟩
  let f0 := coord g el.i0
  let f1 := coord g el.i1
  let f2 := coord g el.i2
  let sign_face := sign origin f0 f1 f2
  -- P on the original edge of the facet's first vertex
  let st1 := bookkeep (interior [origin, f0] P false) sign_face (el.i0 : ℚ) st
  -- P on the original edge of the facet's last vertex
  let st2 := bookkeep (interior [origin, f2] P false) sign_face (el.i2 : ℚ) st1
  -- the `for vertex in facet[1:-1]` loop; facets are triangles, so it runs
  -- exactly once with j = 1 and `vertex = facet[1]`
  let sign_tetra := sign origin f0 f1 f2
  if interior [origin, f0, f1] P true || interior [origin, f1, f2] P true ||
      interior [origin, f2, f0] P true then
    { st2 with inclusion := st2.inclusion + (sign_tetra : ℚ) / 2 }
  else if interior [origin, f1] P false &&
      ((decide (0 < sign_tetra) && !(decide (f1.y ∈ st2.vplus))) ||
       (decide (sign_tetra < 0) && !(decide (f1.y ∈ st2.vminus)))) then
    -- the condition above holds, so this `bookkeep` performs the add and the
    -- record; `vertex[j]` with j = 1 selects the y-COORDINATE of facet[1],
    -- not a vertex index — the source's `vertex` is a coordinate row
    bookkeep (interior [origin, f1] P false) sign_tetra f1.y st2
  else if interior [origin, f0, f1, f2] P true then
    { st2 with inclusion := st2.inclusion + (sign_tetra : ℚ) }
  else st2

/-- The facet loop of `Gamut.feito_torres`, with the early `return True` when
`P` lies on the facet under the edges-excluded interior test; after the last
facet, `P` is inside iff `inclusion > 0`. -/
def ftLoop (g : Gamut) (P : V3) : List Tri → FTState → Bool
  | [], st => decide (0 < st.inclusion)
  | el :: rest, st =>
    if interior [coord g el.i0, coord g el.i1, coord g el.i2] P true then true
    else ftLoop g P rest (ftStep g P st el)

/-- `Gamut.feito_torres(P)`: point-in-polyhedron membership. -/
def feito_torres (g : Gamut) (P : V3) : Bool :=
  ftLoop g P g.simplices ⟨0, [], []⟩

end Gamut

/-- Python exceptions relevant to the embedded operations.  `indexError` is
the `IndexError` raised by indexing `a[0]` on an empty numpy array, and
`qhullError` is `scipy.spatial.qhull.QhullError` as raised by the external
hull primitive.  `noIntersectionError` and `degenerateInputError` are the
error classes named by the specification; no class of either name occurs
anywhere in the source — they are included only so the spec's claims about
them can be stated. -/
inductive PyExc where
  | indexError
  | qhullError
  | noIntersectionError
  | degenerateInputError
deriving DecidableEq, Repr

deriving instance DecidableEq for Except

namespace Gamut

/-- `Gamut.find_plane(points)`: plane of a facet.  The source normalizes the
cross product `n2 = cross(v1, v2)` by its Euclidean norm and returns
`[n3, dot(points[1], n3)]`; the norm is a common positive factor of the
numerator and denominator of `get_alpha`, so the embedding keeps the
unnormalized normal and the unnormalized distance (for a degenerate facet,
`n2 = 0`, the source's normalization produces NaN components and a NaN alpha,
which the range guard rejects; here the zero denominator is rejected
explicitly). -/
def find_plane (p0 p1 p2 : V3) : V3 × ℚ :=
  let v1 := p2 - p0
  let v2 := p1 - p0
  let n2 := crossV v1 v2
  (n2, dotV p1 n2)

/-- `Gamut.get_alpha(d, center, n)`: ray parameter at which the line from
`center` (alpha = 0) to `d` (alpha = 1) crosses the plane `n`. -/
def get_alpha (d center : V3) (n : V3 × ℚ) : ℚ :=
  (n.2 - dotV center n.1) / (dotV d n.1 - dotV center n.1)

/-- `Gamut.line_alpha(alpha, d, center)`: the point
`alpha*d + center - alpha*center`. -/
def line_alpha (alpha : ℚ) (d center : V3) : V3 :=
  smulV alpha d + center - smulV alpha center

/-- The `alpha` list built by `Gamut.intersectionpoint_on_line`: one entry per
facet whose plane is crossed at a parameter in `[0, 1]` with the crossing
point inside the facet's triangle, in facet traversal order.  A zero
denominator makes the source's float division return an infinity or NaN,
which fails the `0 <= x <= 1` range test; the embedding states that exclusion
explicitly. -/
def valid_alphas (g : Gamut) (d center : V3) : List ℚ :=
  g.simplices.foldl (fun acc i =>
    let p0 := coord g i.i0
    let p1 := coord g i.i1
    let p2 := coord g i.i2
    let n := find_plane p0 p1 p2
    let den := dotV d n.1 - dotV center n.1
    let x := get_alpha d center n
    if den ≠ 0 ∧ 0 ≤ x ∧ x ≤ 1 ∧ in_triangle p0 p1 p2 (line_alpha x d center) false = true
    then acc ++ [x] else acc) []

/-- `Gamut.intersectionpoint_on_line(d, center, sp)`: the source computes the
alpha list, calls `np.sort(a, axis=0)` WITHOUT using its result (numpy's sort
returns a sorted copy which is discarded), and then evaluates the line at
`a[0]` — the first valid alpha in facet traversal order.  On an empty alpha
list, `a[0]` raises `IndexError`. -/
def intersectionpoint_on_line (g : Gamut) (d center : V3) : Except PyExc V3 :=
  let alpha := valid_alphas g d center
  match alpha with
  | [] => Except.error PyExc.indexError
  | x :: _ => Except.ok (line_alpha x d center)

/-- Result of the external convex-hull primitive (`scipy.spatial.ConvexHull`):
vertex indices and triangulated facets. -/
structure HullRes where
  vertices : List ℕ
  simplices : List Tri
deriving DecidableEq, Repr

/-- `Gamut.__init__` via `initialize_convex_hull` (the `gamma == 1` path):
call the external hull primitive on the coordinate array, store its vertices
and simplices, then run `fix_orientation` once.  There is no `try/except`
anywhere in the constructor, so a failure of the primitive propagates to the
caller unchanged. -/
def gamut_init (hull_prim : List V3 → Except PyExc HullRes) (data : List V3) :
    Except PyExc Gamut :=
  match hull_prim data with
  | Except.error e => Except.error e
  | Except.ok r =>
    Except.ok (fix_orientation
      { points := data, vertices := r.vertices, simplices := r.simplices })

end Gamut

/-! ### Concrete hulls used by the counterexamples and witnesses -/

/-- A tetrahedral hull whose facets are already consistently outward-oriented
(`fix_orientation` leaves it unchanged, see
`feito_torres_vertex_counterexample`) and which does NOT contain the
coordinate origin: all four vertices lie in the positive octant. -/
def tetraOutG : Gamut :=
  { points := [⟨1,1,1⟩, ⟨3,1,1⟩, ⟨1,3,1⟩, ⟨1,1,3⟩]
    vertices := [0, 1, 2, 3]
    simplices := [⟨0,2,1⟩, ⟨0,1,3⟩, ⟨0,3,2⟩, ⟨1,2,3⟩] }

/-- An asymmetric tetrahedral hull that strictly contains the coordinate
origin, with consistently outward-oriented facets (the facet list is exactly
what `fix_orientation` produces). -/
def tetraAsymG : Gamut :=
  { points := [⟨2,1,1⟩, ⟨1,-2,1⟩, ⟨-2,-1,1⟩, ⟨0,1,-2⟩]
    vertices := [0, 1, 2, 3]
    simplices := [⟨2,1,0⟩, ⟨0,1,3⟩, ⟨3,2,0⟩, ⟨1,2,3⟩] }

/-- The hull of the tetrahedron `(0,0,0), (4,0,0), (0,4,0), (0,0,4)`, with the
facet in the plane `x = 0` listed before the slanted facet `x + y + z = 4`. -/
def tetraC5G : Gamut :=
  { points := [⟨0,0,0⟩, ⟨4,0,0⟩, ⟨0,4,0⟩, ⟨0,0,4⟩]
    vertices := [0, 1, 2, 3]
    simplices := [⟨0,2,3⟩, ⟨1,2,3⟩, ⟨0,1,3⟩, ⟨0,1,2⟩] }

/-- The hull of the 8 corners of the axis-aligned cube of half-width 1
centered at the origin (centroid `(0,0,0)`), each square face split into two
triangles, with consistently outward-oriented windings (exactly what
`fix_orientation` produces). -/
def cubeG : Gamut :=
  { points := [⟨-1,-1,-1⟩, ⟨-1,-1,1⟩, ⟨-1,1,-1⟩, ⟨-1,1,1⟩,
               ⟨1,-1,-1⟩, ⟨1,-1,1⟩, ⟨1,1,-1⟩, ⟨1,1,1⟩]
    vertices := [0, 1, 2, 3, 4, 5, 6, 7]
    simplices := [⟨4,6,7⟩, ⟨4,7,5⟩, ⟨3,2,0⟩, ⟨1,3,0⟩, ⟨0,4,5⟩, ⟨0,5,1⟩,
                  ⟨7,6,2⟩, ⟨3,7,2⟩, ⟨0,2,6⟩, ⟨0,6,4⟩, ⟨7,3,1⟩, ⟨5,7,1⟩] }

namespace Gamut

/-! ### Claim C8: batch traversal of arbitrary-rank point arrays -/

/-- Rank-indexed model of a numpy float array whose last axis has length 3:
`NDT 0` is a single 3-vector (a 1-D array of shape `(3,)`), and `NDT (n+1)`
is an array of rank `n+2` represented as the list of its rank-`(n+1)`
slices. -/
@[reducible] def NDT : ℕ → Type
  | 0 => V3
  | n + 1 => List (NDT n)

/-- Entry of an `NDT` at a multi-index over the leading axes (`none` when the
index path does not address a leaf). -/
def ndtAt : (n : ℕ) → NDT n → List ℕ → Option V3
  | 0, v, [] => some v
  | 0, _, _ :: _ => none
  | _ + 1, _, [] => none
  | n + 1, ts, i :: p =>
    match (ts : List (NDT n)).get? i with
    | some c => ndtAt n c p
    | none => none

/-- The shape of an `NDT` as `np.shape` reports it for a rectangular array:
the length at each level, descending along first slices (an empty slice list
is padded with zeros; such a value cannot arise from a rectangular numpy
array with positive dimensions). -/
def ndtShape : (n : ℕ) → NDT n → List ℕ
  | 0, _ => [3]
  | n + 1, ts =>
    match (ts : List (NDT n)) with
    | [] => 0 :: (List.replicate n 0 ++ [3])
    | c :: rest => (c :: rest).length :: ndtShape n c

/-- Rectangularity: the tensor is a well-formed numpy array of the given
shape.  Zero-length dimensions are excluded because a nested-list encoding
of an empty array does not determine its trailing dimensions. -/
def RectShape : (n : ℕ) → NDT n → List ℕ → Prop
  | 0, _, s => s = [3]
  | n + 1, ts, s => ∃ s', s = (ts : List (NDT n)).length :: s' ∧
      (ts : List (NDT n)) ≠ [] ∧ ∀ c ∈ (ts : List (NDT n)), RectShape n c s'

/-- The mutable state threaded through `traverse_ndarray`: the `indices`
path array and the boolean result array, modelled as an assignment of
booleans to index tuples. -/
structure TravSt where
  indices : List ℤ
  ba : List ℤ → Bool

/-- The `curr_dim` computation of `traverse_ndarray`: the number of entries
of `indices` that have already been set (are not `-1`). -/
def curr_dim (indices : List ℤ) : ℕ :=
  (indices.filter (fun x => decide (x ≠ -1))).length

/-- `Gamut.traverse_ndarray(nda, indices, bool_array)`: recursive descent
over all but the last axis.  At a leaf (`np.ndim(nda) == 1`) the scalar
`feito_torres` result is written into the boolean array at the current index
tuple; at a node, the current dimension number is recomputed from `indices`,
each slice is visited after writing its iteration count into `indices`, and
the entry is reset to `-1` when the loop finishes. -/
def traverse (g : Gamut) : (n : ℕ) → NDT n → TravSt → TravSt
  | 0, v, st =>
    { st with ba := fun k => if k = st.indices then feito_torres g v else st.ba k }
  | n + 1, ts, st =>
    let cd := curr_dim st.indices
    let res := ((ts : List (NDT n)).foldl
      (fun (acc : TravSt × ℕ) c =>
        (traverse g n c { acc.1 with indices := acc.1.indices.set cd (acc.2 : ℤ) },
         acc.2 + 1))
      (st, 0)).1
    { res with indices := res.indices.set cd (-1) }

/-- `Gamut.is_inside(sp, c_data)`: a 1-D point short-circuits to a length-1
boolean array; otherwise `indices` is initialised to `ndim - 1` entries of
`-1`, the boolean array of the leading shape (`np.shape(nd_data)[:-1]`) is
allocated all-`False`, and `traverse_ndarray` fills it.  The result is the
allocated leading shape together with the filled assignment. -/
def is_inside (g : Gamut) : (n : ℕ) → NDT n → (List Bool) ⊕ (List ℕ × (List ℤ → Bool))
  | 0, v => Sum.inl [feito_torres g v]
  | n + 1, t =>
    let st := traverse g (n + 1) t ⟨List.replicate (n + 1) (-1), fun _ => false⟩
    Sum.inr ((ndtShape (n + 1) t).dropLast, st.ba)

/-- The facet of `traverse` that iterates the slices of one axis, named for
the proofs: fold the per-slice visit over the slice list, threading the
iteration counter that is written into `indices` before each visit. -/
def travFold (g : Gamut) (n : ℕ) (cd : ℕ) (cs : List (NDT n)) (i : ℕ) (st : TravSt) :
    TravSt :=
  (cs.foldl (fun (acc : TravSt × ℕ) c =>
      (traverse g n c { acc.1 with indices := acc.1.indices.set cd ((acc.2 : ℤ)) },
       acc.2 + 1)) (st, i)).1

end Gamut


theorem normSq_nonneg (a : V3) : 0 ≤ normSq a := by
  have hx := mul_self_nonneg a.x
  have hy := mul_self_nonneg a.y
  have hz := mul_self_nonneg a.z
  simp only [normSq, dotV]
  linarith

/-- Purely algebraic core of the square-free encoding: for nonnegative reals,
`a + b ≤ c` holds iff the squared form of the comparison does. -/
theorem sq_sum_le_aux (a b c : ℝ) (ha0 : 0 ≤ a) (hb0 : 0 ≤ b) (hc0 : 0 ≤ c) :
    (a + b ≤ c) ↔
      (a ^ 2 + b ^ 2 ≤ c ^ 2 ∧ 4 * a ^ 2 * b ^ 2 ≤ (c ^ 2 - a ^ 2 - b ^ 2) ^ 2) := by
  constructor
  · intro h
    have hab : 0 ≤ a * b := mul_nonneg ha0 hb0
    have hsq : (a + b) ^ 2 ≤ c ^ 2 := by nlinarith
    refine ⟨by nlinarith, ?_⟩
    have ht : 2 * (a * b) ≤ c ^ 2 - a ^ 2 - b ^ 2 := by nlinarith
    have hmul := mul_le_mul ht ht (by linarith) (by linarith)
    nlinarith [hmul]
  · rintro ⟨h1, h2⟩
    have hab : 0 ≤ a * b := mul_nonneg ha0 hb0
    have ht0 : 0 ≤ c ^ 2 - a ^ 2 - b ^ 2 := by linarith
    have ht : 2 * (a * b) ≤ c ^ 2 - a ^ 2 - b ^ 2 := by
      by_contra hlt
      push_neg at hlt
      have habp : 0 < 2 * (a * b) := lt_of_le_of_lt ht0 hlt
      have hprod := mul_pos
        (show 0 < 2 * (a * b) - (c ^ 2 - a ^ 2 - b ^ 2) by linarith)
        (show 0 < 2 * (a * b) + (c ^ 2 - a ^ 2 - b ^ 2) by linarith)
      nlinarith
    have hsq : (a + b) ^ 2 ≤ c ^ 2 := by nlinarith
    by_contra hgt
    push_neg at hgt
    have hpos : 0 < a + b := lt_of_le_of_lt hc0 hgt
    nlinarith [mul_lt_mul_of_pos_right hgt hpos, mul_le_mul_of_nonneg_left hgt.le hc0]

/-- The square-free encoding agrees with the square-root comparison it stands
for: for nonnegative radicands, `√A + √B ≤ √C` holds iff `sqrtSumLe A B C`. -/
theorem sqrtSumLe_iff (A B C : ℝ) (hA : 0 ≤ A) (hB : 0 ≤ B) (hC : 0 ≤ C) :
    (Real.sqrt A + Real.sqrt B ≤ Real.sqrt C) ↔
      (A + B ≤ C ∧ 4 * A * B ≤ (C - A - B) ^ 2) := by
  have h := sq_sum_le_aux (Real.sqrt A) (Real.sqrt B) (Real.sqrt C)
    (Real.sqrt_nonneg A) (Real.sqrt_nonneg B) (Real.sqrt_nonneg C)
  rwa [Real.sq_sqrt hA, Real.sq_sqrt hB, Real.sq_sqrt hC] at h

/-- Bridging fact for the single-norm comparison in `in_line`: comparing two
norms is the same as comparing their squares. -/
theorem sqrt_cmp_iff (A B : ℝ) (hA : 0 ≤ A) (hB : 0 ≤ B) :
    (Real.sqrt A > Real.sqrt B) ↔ A > B := by
  constructor
  · intro h
    by_contra hle
    push_neg at hle
    exact absurd (Real.sqrt_le_sqrt hle) (not_le.mpr h)
  · intro h
    have := Real.sqrt_lt_sqrt hB h
    exact this

namespace Gamut

/-- Certification that `tdet` is the determinant of exactly the matrix the
source builds: rows are the x, y, z coordinates of the four points and a
final row of ones. -/
theorem tdet_eq_det (t0 t1 t2 t3 : V3) :
    tdet t0 t1 t2 t3 =
      Matrix.det !![t0.x, t1.x, t2.x, t3.x;
                    t0.y, t1.y, t2.y, t3.y;
                    t0.z, t1.z, t2.z, t3.z;
                    1, 1, 1, 1] := by
  simp [Matrix.det_succ_row_zero, Fin.sum_univ_succ, tdet, dotV, crossV,
    Fin.succAbove, Fin.castSucc, Fin.castAdd, Fin.castLE, Fin.lt_def,
    Matrix.cons_val_zero, Matrix.cons_val_one, Matrix.head_cons,
    Matrix.cons_val_succ]
  ring

end Gamut

/-! ### Claim C3: characterization of `in_line` -/

/-- C3 counterexample: `in_line` accepts a point that is NOT collinear with
the segment.  For the segment from `(0,0,0)` to `(2,0,0)` and the point
`(0,1,1)`, the cross product of the edge vector and the point vector is
nonzero (the point is not on the line through the segment — it is not any
scalar multiple of the edge vector), yet `in_line` returns `True`: the
source's collinearity check `det([[1,1,1], b, p]) != 0` only tests that the
components of `b x p` sum to zero. -/
theorem in_line_counterexample :
    Gamut.in_line ⟨0,0,0⟩ ⟨2,0,0⟩ ⟨0,1,1⟩ false = true ∧
      crossV ((⟨2,0,0⟩ : V3) - ⟨0,0,0⟩) ((⟨0,1,1⟩ : V3) - ⟨0,0,0⟩) ≠ 0 ∧
      ∀ t : ℚ, (⟨0,1,1⟩ : V3) - ⟨0,0,0⟩ ≠ smulV t ((⟨2,0,0⟩ : V3) - ⟨0,0,0⟩) := by
  refine ⟨by decide, by decide, ?_⟩
  intro t h
  rw [show (⟨0,1,1⟩ : V3) - ⟨0,0,0⟩ = ⟨0,1,1⟩ from by decide,
    show (⟨2,0,0⟩ : V3) - ⟨0,0,0⟩ = ⟨2,0,0⟩ from by decide] at h
  have hy := congrArg V3.y h
  simp [smulV] at hy

/-- C3 (amended): `in_line(line, point, true_interior)` returns `True` iff
the components of `(line[1]-line[0]) x (point-line[0])` sum to zero (the
source's `det([[1,1,1], b, p]) == 0` test — NOT genuine collinearity), the
dot product of `point-line[0]` with `line[1]-line[0]` is nonnegative, and the
distance of `point` from `line[0]` is at most the segment length; with
`true_interior` set it additionally requires `point` to differ from both
endpoints. -/
theorem in_line_iff (l0 l1 point : V3) (ti : Bool) :
    Gamut.in_line l0 l1 point ti = true ↔
      ((ti = true → point ≠ l0 ∧ point ≠ l1) ∧
        dotV ⟨1,1,1⟩ (crossV (l1 - l0) (point - l0)) = 0 ∧
        0 ≤ dotV (point - l0) (l1 - l0) ∧
        normSq (point - l0) ≤ normSq (l1 - l0)) := by
  unfold Gamut.in_line
  split_ifs with h1 <;> simp_all
  exact fun hne0 hne1 => absurd h1.2 (by simp [hne0, hne1])

/-- C3 witness: the characterization applied at the concrete segment from
the origin to `(2,0,0)` with `point = (1,0,0)` and endpoints excluded. -/
theorem in_line_iff_witness :
    Gamut.in_line ⟨0,0,0⟩ ⟨2,0,0⟩ ⟨1,0,0⟩ true = true :=
  (in_line_iff ⟨0,0,0⟩ ⟨2,0,0⟩ ⟨1,0,0⟩ true).mpr (by refine ⟨fun _ => ⟨by decide, by decide⟩, by decide, by decide, by decide⟩)

/-! ### Claim C4: `sign` versus the homogeneous determinant -/

/-- C4 counterexample: for the tetrahedron
`((0,0,0), (1,0,0), (0,1,0), (0,0,1))` the 4x4 homogeneous-coordinate
determinant (rows = coordinates, final row of ones) is negative, yet `sign`
returns `+1`: the source returns `int(np.sign(det)) * -1`, the NEGATED sign
of that determinant. -/
theorem sign_counterexample :
    Gamut.sign ⟨0,0,0⟩ ⟨1,0,0⟩ ⟨0,1,0⟩ ⟨0,0,1⟩ = 1 ∧
      Gamut.tdet ⟨0,0,0⟩ ⟨1,0,0⟩ ⟨0,1,0⟩ ⟨0,0,1⟩ < 0 := by
  constructor <;> decide

/-- C4 (amended): `sign(t)` returns the NEGATED sign of the 4x4
homogeneous-coordinate determinant of the four points: `+1` exactly when that
determinant is negative, `0` exactly when it is zero, and `-1` exactly when
it is positive. -/
theorem sign_eq_neg_det_sign (t0 t1 t2 t3 : V3) :
    (Gamut.sign t0 t1 t2 t3 = 1 ↔ Gamut.tdet t0 t1 t2 t3 < 0) ∧
    (Gamut.sign t0 t1 t2 t3 = 0 ↔ Gamut.tdet t0 t1 t2 t3 = 0) ∧
    (Gamut.sign t0 t1 t2 t3 = -1 ↔ 0 < Gamut.tdet t0 t1 t2 t3) := by
  unfold Gamut.sign
  rcases lt_trichotomy (Gamut.tdet t0 t1 t2 t3) 0 with h | h | h
  · rw [if_neg (by linarith), if_pos h]
    refine ⟨⟨fun _ => h, fun _ => by norm_num⟩, ⟨fun hc => by norm_num at hc, fun hc => by linarith⟩,
      ⟨fun hc => by norm_num at hc, fun hc => by linarith⟩⟩
  · rw [if_neg (by linarith), if_neg (by linarith)]
    refine ⟨⟨fun hc => by norm_num at hc, fun hc => by linarith⟩, ⟨fun _ => h, fun _ => by norm_num⟩,
      ⟨fun hc => by norm_num at hc, fun hc => by linarith⟩⟩
  · rw [if_pos h]
    refine ⟨⟨fun hc => by norm_num at hc, fun hc => by linarith⟩, ⟨fun hc => by norm_num at hc, fun hc => by linarith⟩,
      ⟨fun _ => h, fun _ => by norm_num⟩⟩

/-- C4 witness: the amended characterization applied to a concrete positively
oriented tetrahedron. -/
theorem sign_eq_neg_det_sign_witness :
    Gamut.sign ⟨0,0,0⟩ ⟨1,0,0⟩ ⟨0,1,0⟩ ⟨0,0,1⟩ = 1 :=
  (sign_eq_neg_det_sign ⟨0,0,0⟩ ⟨1,0,0⟩ ⟨0,1,0⟩ ⟨0,0,1⟩).1.mpr (by decide)

/-! ### Vector algebra support -/

@[simp] theorem V3.add_def (a b : V3) : a + b = ⟨a.x + b.x, a.y + b.y, a.z + b.z⟩ := rfl

@[simp] theorem V3.sub_def (a b : V3) : a - b = ⟨a.x - b.x, a.y - b.y, a.z - b.z⟩ := rfl

@[simp] theorem V3.zero_def : (0 : V3) = ⟨0, 0, 0⟩ := rfl

theorem vsum_aux (l : List V3) : ∀ acc : V3,
    l.foldl (· + ·) acc =
      ⟨acc.x + (l.map V3.x).sum, acc.y + (l.map V3.y).sum, acc.z + (l.map V3.z).sum⟩ := by
  induction l with
  | nil => intro acc; cases acc; simp
  | cons a l ih =>
    intro acc
    rw [List.foldl_cons, ih]
    simp
    refine ⟨by ring, by ring, by ring⟩

theorem vsum_eq (l : List V3) :
    vsum l = ⟨(l.map V3.x).sum, (l.map V3.y).sum, (l.map V3.z).sum⟩ := by
  have h := vsum_aux l 0
  simpa [vsum] using h

theorem qsum_sub (f g : V3 → ℚ) (l : List V3) :
    (l.map (fun p => f p - g p)).sum = (l.map f).sum - (l.map g).sum := by
  induction l with
  | nil => simp
  | cons a l ih => simp [ih]; ring

theorem qsum_const (c : ℚ) (l : List V3) :
    (l.map (fun _ => c)).sum = (l.length : ℚ) * c := by
  induction l with
  | nil => simp
  | cons a l ih => simp [ih]; ring

/-- Sum of a pointwise-translated list of vectors. -/
theorem vsum_map_sub (l : List V3) (c : V3) :
    vsum (l.map (fun p => p - c)) = vsum l - smulV (l.length : ℚ) c := by
  rw [vsum_eq, vsum_eq]
  simp only [List.map_map, Function.comp_def, V3.sub_def, smulV, V3.mk.injEq]
  refine ⟨?_, ?_, ?_⟩
  · have h := qsum_sub V3.x (fun _ => c.x) l
    simp only [] at h
    rw [h, qsum_const]
  · have h := qsum_sub V3.y (fun _ => c.y) l
    simp only [] at h
    rw [h, qsum_const]
  · have h := qsum_sub V3.z (fun _ => c.z) l
    simp only [] at h
    rw [h, qsum_const]

/-! ### Claim C10: `center_of_mass` value and mutation -/

/-- C10: `center_of_mass(points)` returns the arithmetic mean of the rows,
and (modelling the source's in-place `points[i, :] -= cm` loop) the caller's
array ends up with the mean subtracted from every row, i.e. translated so
that its centroid is the coordinate origin. -/
theorem center_of_mass_spec (points : List V3) (h : points ≠ []) :
    (Gamut.center_of_mass points).1 = smulV (1 / (points.length : ℚ)) (vsum points) ∧
    (Gamut.center_of_mass points).2 =
      points.map (fun p => p - (Gamut.center_of_mass points).1) ∧
    vsum (Gamut.center_of_mass points).2 = 0 := by
  refine ⟨rfl, rfl, ?_⟩
  have hn : (points.length : ℚ) ≠ 0 :=
    Nat.cast_ne_zero.mpr (List.length_pos.mpr h).ne'
  rw [show (Gamut.center_of_mass points).2 =
      points.map (fun p => p - smulV (1 / (points.length : ℚ)) (vsum points)) from rfl]
  rw [vsum_map_sub]
  simp only [smulV, V3.sub_def, V3.zero_def, V3.mk.injEq]
  refine ⟨?_, ?_, ?_⟩ <;> field_simp

/-- C10 witness: the specification applied to a concrete two-point list. -/
theorem center_of_mass_spec_witness :
    vsum (Gamut.center_of_mass [⟨1,2,3⟩, ⟨3,4,5⟩]).2 = 0 :=
  (center_of_mass_spec [⟨1,2,3⟩, ⟨3,4,5⟩] (by decide)).2.2

/-! ### Claim C9: `fix_orientation` is outward-fixing and idempotent -/

/-- Reversing a facet (swapping its first and last vertex, as
`fix_orientation` does) negates the signed test it uses: the normal flips
sign, while the offset is unchanged because the triple product with a
repeated edge vector vanishes. -/
theorem orient_swap_dot (f0 f1 f2 c : V3) :
    dotV (f2 - c) (crossV (f1 - f2) (f0 - f2)) =
      -(dotV (f0 - c) (crossV (f1 - f0) (f2 - f0))) := by
  cases f0; cases f1; cases f2; cases c
  simp only [dotV, crossV, V3.sub_def]
  ring

/-- C9: after one run of `fix_orientation`, every facet's normal
`(f1-f0) x (f2-f0)` has nonnegative dot product with the vector from the
center of mass of the hull's vertex set to the facet, and a second run
performs no swaps: it returns the identical facet list. -/
theorem fix_orientation_spec (g : Gamut) :
    (∀ s ∈ (Gamut.fix_orientation g).simplices,
        0 ≤ dotV (Gamut.coord g s.i0 -
              (Gamut.center_of_mass (Gamut.get_coordinates g g.vertices)).1)
            (crossV (Gamut.coord g s.i1 - Gamut.coord g s.i0)
                    (Gamut.coord g s.i2 - Gamut.coord g s.i0))) ∧
    Gamut.fix_orientation (Gamut.fix_orientation g) = Gamut.fix_orientation g := by
  constructor
  · intro s hs
    simp only [Gamut.fix_orientation, List.mem_map] at hs
    obtain ⟨t, ht, rfl⟩ := hs
    by_cases hd : dotV (Gamut.coord g t.i0 -
          (Gamut.center_of_mass (Gamut.get_coordinates g g.vertices)).1)
        (crossV (Gamut.coord g t.i1 - Gamut.coord g t.i0)
                (Gamut.coord g t.i2 - Gamut.coord g t.i0)) < 0
    · rw [if_pos hd]
      rw [show (⟨t.i2, t.i1, t.i0⟩ : Tri).i0 = t.i2 from rfl,
        show (⟨t.i2, t.i1, t.i0⟩ : Tri).i1 = t.i1 from rfl,
        show (⟨t.i2, t.i1, t.i0⟩ : Tri).i2 = t.i0 from rfl,
        orient_swap_dot]
      linarith
    · rw [if_neg hd]
      linarith [not_lt.mp hd]
  · have hcu : ∀ s : List Tri, Gamut.coord ⟨g.points, g.vertices, s⟩ = Gamut.coord g :=
      fun _ => rfl
    have hgu : ∀ s : List Tri,
        Gamut.get_coordinates ⟨g.points, g.vertices, s⟩ = Gamut.get_coordinates g :=
      fun _ => rfl
    have hvu : ∀ s : List Tri, Gamut.vertices ⟨g.points, g.vertices, s⟩ = g.vertices :=
      fun _ => rfl
    have hsu : ∀ s : List Tri, Gamut.simplices ⟨g.points, g.vertices, s⟩ = s :=
      fun _ => rfl
    simp only [Gamut.fix_orientation, hcu, hgu, hvu, hsu, List.map_map]
    congr 1
    apply List.map_congr_left
    intro t ht
    simp only [Function.comp_def]
    by_cases hd : dotV (Gamut.coord g t.i0 -
          (Gamut.center_of_mass (Gamut.get_coordinates g g.vertices)).1)
        (crossV (Gamut.coord g t.i1 - Gamut.coord g t.i0)
                (Gamut.coord g t.i2 - Gamut.coord g t.i0)) < 0
    · rw [if_pos hd, if_neg]
      rw [show (⟨t.i2, t.i1, t.i0⟩ : Tri).i0 = t.i2 from rfl,
        show (⟨t.i2, t.i1, t.i0⟩ : Tri).i1 = t.i1 from rfl,
        show (⟨t.i2, t.i1, t.i0⟩ : Tri).i2 = t.i0 from rfl,
        orient_swap_dot]
      linarith
    · rw [if_neg hd, if_neg hd]

/-! ### Claim C1: the on-facet guard of `feito_torres` -/

/-- The Feito-Torres facet loop returns `True` as soon as it reaches any
facet whose guard holds, regardless of the accumulator state built by the
earlier facets. -/
theorem ftLoop_of_facet (g : Gamut) (P : V3) :
    ∀ (l : List Tri) (st : Gamut.FTState) (el : Tri), el ∈ l →
      Gamut.interior [Gamut.coord g el.i0, Gamut.coord g el.i1, Gamut.coord g el.i2] P true
        = true →
      Gamut.ftLoop g P l st = true := by
  intro l
  induction l with
  | nil => intro st el h _; exact absurd h (List.not_mem_nil el)
  | cons a l ih =>
    intro st el hmem hint
    unfold Gamut.ftLoop
    rcases List.mem_cons.mp hmem with rfl | h
    · rw [if_pos hint]
    · by_cases hg : Gamut.interior
          [Gamut.coord g a.i0, Gamut.coord g a.i1, Gamut.coord g a.i2] P true = true
      · rw [if_pos hg]
      · rw [if_neg hg]
        exact ih _ el h hint

/-- C1 counterexample: in the hull `tetraOutG` the query point `(3,1,1)` is
exactly the hull's own vertex number 1 — it lies on the facets containing
that vertex, on their edges — yet `feito_torres` returns `False` (not
inside): the on-facet guard uses the edges-EXCLUDED interior test, so vertex
and edge points fall through to the signed bookkeeping, which here (the
coordinate origin lies outside the hull, so facet signs are mixed)
accumulates a non-positive total.  The first conjunct checks that the hull is
exactly as `fix_orientation` leaves it. -/
theorem feito_torres_vertex_counterexample :
    Gamut.fix_orientation tetraOutG = tetraOutG ∧
    Gamut.coord tetraOutG 1 = ⟨3,1,1⟩ ∧ (1 : ℕ) ∈ tetraOutG.vertices ∧
    Gamut.feito_torres tetraOutG ⟨3,1,1⟩ = false := by
  refine ⟨by decide, by decide, by decide, by decide⟩

/-- C1 (amended): if the query point `P` lies on a facet under the
edges-EXCLUDED coplanar interior test (`interior(facet, P, True)` — the
`true_interior` variant the source actually applies, which rejects points on
the facet's edges and vertices), then `feito_torres` returns `True`
immediately on reaching that facet.  Points at a hull vertex are NOT caught
by this guard and can be reported outside (see the counterexample). -/
theorem feito_torres_facet_interior (g : Gamut) (P : V3) (el : Tri)
    (hel : el ∈ g.simplices)
    (hint : Gamut.interior
      [Gamut.coord g el.i0, Gamut.coord g el.i1, Gamut.coord g el.i2] P true = true) :
    Gamut.feito_torres g P = true :=
  ftLoop_of_facet g P g.simplices ⟨0, [], []⟩ el hel hint

/-- C1 witness: the centroid of the facet `(2,1,0)` of `tetraAsymG` lies in
the facet's relative interior, and `feito_torres` reports it inside. -/
theorem feito_torres_facet_interior_witness :
    Gamut.feito_torres tetraAsymG ⟨1/3, -2/3, 1⟩ = true :=
  feito_torres_facet_interior tetraAsymG ⟨1/3, -2/3, 1⟩ ⟨2,1,0⟩ (by decide) (by decide)

/-! ### Claim C2: edge midpoints and the `v_plus`/`v_minus` bookkeeping -/

theorem nodup_append_one (l : List ℚ) (a : ℚ) (h : l.Nodup) (hna : a ∉ l) :
    (l ++ [a]).Nodup := by
  rw [List.nodup_append]
  refine ⟨h, List.nodup_singleton a, ?_⟩
  intro x hx hxa
  rw [List.mem_singleton] at hxa
  subst hxa
  exact hna hx

/-- The guarded add-and-record step preserves duplicate-freedom of both
bookkeeping lists: a value is appended only under the `np.in1d` membership
check for the matching orientation sign. -/
theorem bookkeep_nodup (c : Bool) (s : ℤ) (v : ℚ) (st : Gamut.FTState)
    (hp : st.vplus.Nodup) (hm : st.vminus.Nodup) :
    (Gamut.bookkeep c s v st).vplus.Nodup ∧ (Gamut.bookkeep c s v st).vminus.Nodup := by
  unfold Gamut.bookkeep
  split
  next hc =>
    simp only [Bool.and_eq_true, Bool.or_eq_true, Bool.not_eq_true', decide_eq_true_eq,
      decide_eq_false_iff_not] at hc
    obtain ⟨-, hg⟩ := hc
    by_cases hs : s < 0
    · simp only [if_pos hs]
      refine ⟨hp, nodup_append_one _ _ hm ?_⟩
      rcases hg with ⟨h0, -⟩ | ⟨-, hv⟩
      · omega
      · exact hv
    · simp only [if_neg hs]
      refine ⟨nodup_append_one _ _ hp ?_, hm⟩
      rcases hg with ⟨-, hv⟩ | ⟨h0, -⟩
      · exact hv
      · omega
  next => exact ⟨hp, hm⟩

/-- One full Feito-Torres facet step preserves duplicate-freedom of the
`v_plus`/`v_minus` lists: every path that appends to either list is guarded
by the corresponding membership check, so the lists record each value at most
once per orientation sign. -/
theorem ftStep_nodup (g : Gamut) (P : V3) (st : Gamut.FTState) (el : Tri)
    (hp : st.vplus.Nodup) (hm : st.vminus.Nodup) :
    (Gamut.ftStep g P st el).vplus.Nodup ∧ (Gamut.ftStep g P st el).vminus.Nodup := by
  dsimp only [Gamut.ftStep]
  have h1 := bookkeep_nodup
    (Gamut.interior [⟨0,0,0⟩, Gamut.coord g el.i0] P false)
    (Gamut.sign ⟨0,0,0⟩ (Gamut.coord g el.i0) (Gamut.coord g el.i1) (Gamut.coord g el.i2))
    (el.i0 : ℚ) st hp hm
  have h2 := bookkeep_nodup
    (Gamut.interior [⟨0,0,0⟩, Gamut.coord g el.i2] P false)
    (Gamut.sign ⟨0,0,0⟩ (Gamut.coord g el.i0) (Gamut.coord g el.i1) (Gamut.coord g el.i2))
    (el.i2 : ℚ) _ h1.1 h1.2
  split
  next => exact h2
  next =>
    split
    next => exact bookkeep_nodup _ _ _ _ h2.1 h2.2
    next =>
      split
      next => exact h2
      next => exact h2

/-- C2 counterexample: `(0,0,1)` is exactly the midpoint of the hull edge
joining vertices 0 and 2 of `tetraAsymG` (an edge shared by the two adjacent
facets `(2,1,0)` and `(3,2,0)`), the hull strictly contains the coordinate
origin, yet `feito_torres` reports the point NOT inside: the on-facet guard
excludes edges and the origin-tetrahedron test excludes its surface, so no
branch credits the point. -/
theorem feito_torres_midpoint_counterexample :
    Gamut.fix_orientation tetraAsymG = tetraAsymG ∧
    smulV (1/2) (Gamut.coord tetraAsymG 0 + Gamut.coord tetraAsymG 2) = ⟨0,0,1⟩ ∧
    (⟨2,1,0⟩ : Tri) ∈ tetraAsymG.simplices ∧ (⟨3,2,0⟩ : Tri) ∈ tetraAsymG.simplices ∧
    Gamut.feito_torres tetraAsymG ⟨0,0,1⟩ = false := by
  refine ⟨by decide, by decide, by decide, by decide, by decide⟩

/-- C2 (amended): at the midpoint of a hull edge `feito_torres` reports the
point OUTSIDE (shown for the example hull `tetraAsymG`, whose facets are
consistently outward-oriented and which strictly contains the origin), and
this result is indeed independent of the order in which the edge's adjacent
facets are traversed — reversing the whole facet list gives the same answer.
The `v_plus`/`v_minus` sets do record each value at most once per orientation
sign: every facet step preserves duplicate-freedom of both lists. -/
theorem feito_torres_midpoint_amended :
    Gamut.feito_torres tetraAsymG ⟨0,0,1⟩ = false ∧
    Gamut.feito_torres { tetraAsymG with simplices := tetraAsymG.simplices.reverse }
      ⟨0,0,1⟩ = false ∧
    (∀ (g : Gamut) (P : V3) (st : Gamut.FTState) (el : Tri),
      st.vplus.Nodup → st.vminus.Nodup →
      (Gamut.ftStep g P st el).vplus.Nodup ∧ (Gamut.ftStep g P st el).vminus.Nodup) :=
  ⟨by decide, by decide, fun g P st el hp hm => ftStep_nodup g P st el hp hm⟩

/-- C2 witness: the bookkeeping preservation applied at a concrete facet step
of the example hull starting from the empty state. -/
theorem feito_torres_midpoint_amended_witness :
    (Gamut.ftStep tetraAsymG ⟨0,0,1⟩ ⟨0, [], []⟩ ⟨2,1,0⟩).vplus.Nodup ∧
    (Gamut.ftStep tetraAsymG ⟨0,0,1⟩ ⟨0, [], []⟩ ⟨2,1,0⟩).vminus.Nodup :=
  feito_torres_midpoint_amended.2.2 tetraAsymG ⟨0,0,1⟩ ⟨0, [], []⟩ ⟨2,1,0⟩
    (by decide) (by decide)

/-- C9 witness: the specification applied to a concrete tetrahedral gamut. -/
theorem fix_orientation_spec_witness :
    Gamut.fix_orientation (Gamut.fix_orientation
      { points := [⟨2,1,1⟩, ⟨1,-2,1⟩, ⟨-2,-1,1⟩, ⟨0,1,-2⟩],
        vertices := [0,1,2,3],
        simplices := [⟨0,1,2⟩, ⟨0,1,3⟩, ⟨0,2,3⟩, ⟨1,2,3⟩] }) =
    Gamut.fix_orientation
      { points := [⟨2,1,1⟩, ⟨1,-2,1⟩, ⟨-2,-1,1⟩, ⟨0,1,-2⟩],
        vertices := [0,1,2,3],
        simplices := [⟨0,1,2⟩, ⟨0,1,3⟩, ⟨0,2,3⟩, ⟨1,2,3⟩] } :=
  (fix_orientation_spec _).2

/-! ### Claim C5: nearest-crossing selection in `intersectionpoint_on_line` -/

/-- C5 counterexample: from `center = (10,1,1)` (outside the hull
`tetraC5G`) toward `d = (-10,1,1)`, the segment crosses the `x = 0` facet at
`alpha = 1/2` (point `(0,1,1)`) and the slanted facet at `alpha = 2/5`
(point `(2,1,1)`).  Both crossings are collected, and `2/5 < 1/2`, yet the
function returns the `alpha = 1/2` crossing: `np.sort(a, axis=0)` returns a
sorted COPY that the source discards, so `a[0]` is merely the first valid
alpha in facet order, not the smallest. -/
theorem intersectionpoint_counterexample :
    Gamut.valid_alphas tetraC5G ⟨-10,1,1⟩ ⟨10,1,1⟩ = [1/2, 2/5] ∧
    Gamut.intersectionpoint_on_line tetraC5G ⟨-10,1,1⟩ ⟨10,1,1⟩ = Except.ok ⟨0,1,1⟩ ∧
    Gamut.line_alpha (2/5) ⟨-10,1,1⟩ ⟨10,1,1⟩ = ⟨2,1,1⟩ ∧
    (2/5 : ℚ) < 1/2 := by
  refine ⟨by decide, by decide, by decide, by decide⟩

/-- C5 (amended): `intersectionpoint_on_line` collects every facet whose
plane the segment from `center` to `d` crosses at a parameter in `[0,1]` with
the crossing point inside the facet's triangle, and returns the crossing of
the FIRST such facet in facet traversal order (the sorted copy produced by
`np.sort` is discarded); when the valid crossing is unique this is the
nearest crossing.  In particular, for the hull of the corners of a cube of
half-width 1 centered at the origin, with `center` the centroid and
`d = (1,0,0)`, it returns `(1,0,0)`. -/
theorem intersectionpoint_amended :
    (∀ (g : Gamut) (d center : V3) (x : ℚ) (xs : List ℚ),
        Gamut.valid_alphas g d center = x :: xs →
        Gamut.intersectionpoint_on_line g d center =
          Except.ok (Gamut.line_alpha x d center)) ∧
    Gamut.intersectionpoint_on_line cubeG ⟨1,0,0⟩ ⟨0,0,0⟩ = Except.ok ⟨1,0,0⟩ := by
  constructor
  · intro g d c x xs h
    simp only [Gamut.intersectionpoint_on_line, h]
  · decide

/-- C5 witness: the first-facet rule applied to the cube, whose two `+x` face
triangles both yield the crossing parameter 1. -/
theorem intersectionpoint_amended_witness :
    Gamut.intersectionpoint_on_line cubeG ⟨1,0,0⟩ ⟨0,0,0⟩ =
      Except.ok (Gamut.line_alpha 1 ⟨1,0,0⟩ ⟨0,0,0⟩) :=
  intersectionpoint_amended.1 cubeG ⟨1,0,0⟩ ⟨0,0,0⟩ 1 [1] (by decide)

/-! ### Claim C6: behaviour when no facet yields a valid crossing -/

/-- C6 counterexample: with `d = center = (3,3,3)` no facet of the cube
yields a valid crossing (the alpha list is empty), and the call fails with
`IndexError` — raised by indexing `a[0]` on the empty numpy array — not with
a `NoIntersectionError` (no such class exists anywhere in the source). -/
theorem no_crossing_counterexample :
    Gamut.valid_alphas cubeG ⟨3,3,3⟩ ⟨3,3,3⟩ = [] ∧
    Gamut.intersectionpoint_on_line cubeG ⟨3,3,3⟩ ⟨3,3,3⟩ =
      Except.error PyExc.indexError ∧
    Gamut.intersectionpoint_on_line cubeG ⟨3,3,3⟩ ⟨3,3,3⟩ ≠
      Except.error PyExc.noIntersectionError := by
  refine ⟨by decide, by decide, ?_⟩
  intro h
  rw [show Gamut.intersectionpoint_on_line cubeG ⟨3,3,3⟩ ⟨3,3,3⟩ =
      Except.error PyExc.indexError from by decide] at h
  exact absurd (Except.error.inj h) (by decide)

/-- C6 (amended): when no facet yields a valid in-range, in-triangle
crossing, `intersectionpoint_on_line` fails with an uncaught `IndexError`
(from `a[0]` on the empty alpha array), surfaced to the caller rather than
silently defaulting to some facet's crossing point. -/
theorem no_crossing_amended (g : Gamut) (d center : V3)
    (h : Gamut.valid_alphas g d center = []) :
    Gamut.intersectionpoint_on_line g d center = Except.error PyExc.indexError := by
  simp only [Gamut.intersectionpoint_on_line, h]

/-- C6 witness: the amended failure rule applied to the cube with
`d = center = (3,3,3)`. -/
theorem no_crossing_amended_witness :
    Gamut.intersectionpoint_on_line cubeG ⟨3,3,3⟩ ⟨3,3,3⟩ =
      Except.error PyExc.indexError :=
  no_crossing_amended cubeG ⟨3,3,3⟩ ⟨3,3,3⟩ (by decide)

/-! ### Claim C7: construction failures -/

/-- C7 counterexample: for a three-point input the external hull primitive
fails (scipy raises `QhullError` for fewer than 4 points, and the spec's own
taxonomy files that under `HullConstructionError`); the constructor
propagates exactly that error — it does NOT raise a `DegenerateInputError`,
a class that exists nowhere in the source. -/
theorem gamut_init_counterexample :
    Gamut.gamut_init (fun _ => Except.error PyExc.qhullError)
      [⟨0,0,0⟩, ⟨1,0,0⟩, ⟨0,1,0⟩] = Except.error PyExc.qhullError ∧
    Gamut.gamut_init (fun _ => Except.error PyExc.qhullError)
      [⟨0,0,0⟩, ⟨1,0,0⟩, ⟨0,1,0⟩] ≠ Except.error PyExc.degenerateInputError := by
  refine ⟨rfl, ?_⟩
  intro h
  exact absurd (Except.error.inj h) (by decide)

/-- C7 (amended): `Gamut.__init__` contains no exception handling, so
whatever error the underlying convex-hull primitive raises — for fewer than
4 points, coplanar input, or any numerical failure — propagates to the
caller unchanged; no `DegenerateInputError` is ever raised because no such
class exists. -/
theorem gamut_init_amended (hull_prim : List V3 → Except PyExc Gamut.HullRes)
    (data : List V3) (e : PyExc) (h : hull_prim data = Except.error e) :
    Gamut.gamut_init hull_prim data = Except.error e := by
  simp only [Gamut.gamut_init, h]

/-- C7 witness: propagation applied to a concrete failing primitive on a
three-point input. -/
theorem gamut_init_amended_witness :
    Gamut.gamut_init (fun _ => Except.error PyExc.qhullError)
      [⟨0,0,0⟩, ⟨1,0,0⟩, ⟨0,1,0⟩] = Except.error PyExc.qhullError :=
  gamut_init_amended (fun _ => Except.error PyExc.qhullError)
    [⟨0,0,0⟩, ⟨1,0,0⟩, ⟨0,1,0⟩] PyExc.qhullError rfl

/-- Setting the entry just past a prefix of an index array. -/
theorem set_append_len (l1 : List ℤ) (y : ℤ) (l2 : List ℤ) (a : ℤ) :
    (l1 ++ y :: l2).set l1.length a = l1 ++ a :: l2 := by
  induction l1 with
  | nil => rfl
  | cons b l ih => simp [List.set, ih]

/-- The unset tail of the `indices` array contributes nothing to `curr_dim`. -/
theorem filter_replicate_neg (m : ℕ) :
    (List.replicate m (-1 : ℤ)).filter (fun x => decide (x ≠ -1)) = [] := by
  induction m with
  | zero => rfl
  | succ m ih => simp [List.replicate, List.filter, ih]

/-- `curr_dim` of an `indices` array whose set entries form a prefix is the
length of that prefix. -/
theorem curr_dim_eq (pre : List ℤ) (m : ℕ) (hpre : ∀ x ∈ pre, x ≠ -1) :
    Gamut.curr_dim (pre ++ List.replicate m (-1)) = pre.length := by
  unfold Gamut.curr_dim
  rw [List.filter_append, filter_replicate_neg, List.append_nil,
    List.filter_eq_self.mpr (by intro a ha; simpa using hpre a ha)]

namespace Gamut

theorem travFold_nil (g : Gamut) (n : ℕ) (cd : ℕ) (i : ℕ) (st : TravSt) :
    travFold g n cd [] i st = st := rfl

theorem travFold_cons (g : Gamut) (n : ℕ) (cd : ℕ) (c : NDT n) (cs : List (NDT n))
    (i : ℕ) (st : TravSt) :
    travFold g n cd (c :: cs) i st =
      travFold g n cd cs (i + 1)
        (traverse g n c { st with indices := st.indices.set cd ((i : ℤ)) }) := rfl

theorem traverse_succ (g : Gamut) (n : ℕ) (ts : NDT (n + 1)) (st : TravSt) :
    traverse g (n + 1) ts st =
      { travFold g n (curr_dim st.indices) ts 0 st with
        indices := (travFold g n (curr_dim st.indices) ts 0 st).indices.set
          (curr_dim st.indices) (-1) } := rfl

end Gamut

/-- Specification of the per-axis slice loop: it restores the shape of
`indices`, writes the `feito_torres` result of every leaf reachable through
slice `j` at the key `pre ++ (i + j) :: path`, and leaves every other key of
the boolean array untouched. -/
theorem travFold_spec (g : Gamut) (n : ℕ) (pre : List ℤ)
    (hpre : ∀ x ∈ pre, x ≠ -1)
    (ih : ∀ (t : Gamut.NDT n) (st : Gamut.TravSt) (pre' : List ℤ),
      st.indices = pre' ++ List.replicate n (-1) →
      (∀ x ∈ pre', x ≠ -1) →
      (Gamut.traverse g n t st).indices = st.indices ∧
      (∀ (p : List ℕ) (v : V3), Gamut.ndtAt n t p = some v →
          (Gamut.traverse g n t st).ba (pre' ++ p.map (fun a => (a : ℤ))) = Gamut.feito_torres g v) ∧
      (∀ k : List ℤ, (∀ q : List ℕ, k ≠ pre' ++ q.map (fun a => (a : ℤ))) →
          (Gamut.traverse g n t st).ba k = st.ba k)) :
    ∀ (cs : List (Gamut.NDT n)) (i : ℕ) (st' : Gamut.TravSt) (y : ℤ),
      st'.indices = pre ++ y :: List.replicate n (-1) →
      (∃ y', (Gamut.travFold g n pre.length cs i st').indices =
          pre ++ y' :: List.replicate n (-1)) ∧
      (∀ (j : ℕ) (c : Gamut.NDT n), cs.get? j = some c →
        ∀ (p : List ℕ) (v : V3), Gamut.ndtAt n c p = some v →
          (Gamut.travFold g n pre.length cs i st').ba
              (pre ++ ((i + j : ℕ) : ℤ) :: p.map (fun a => (a : ℤ))) = Gamut.feito_torres g v) ∧
      (∀ k : List ℤ,
        (∀ (j : ℕ) (q : List ℕ), i ≤ j → k ≠ pre ++ (j : ℤ) :: q.map (fun a => (a : ℤ))) →
        (Gamut.travFold g n pre.length cs i st').ba k = st'.ba k) := by
  intro cs
  induction cs with
  | nil =>
    intro i st' y hinv
    refine ⟨⟨y, hinv⟩, ?_, fun k _ => rfl⟩
    intro j c hj
    simp at hj
  | cons c cs ihl =>
    intro i st' y hinv
    rw [Gamut.travFold_cons]
    have hset : ({ st' with indices := st'.indices.set pre.length ((i : ℤ)) }
        : Gamut.TravSt).indices = (pre ++ [(i : ℤ)]) ++ List.replicate n (-1) := by
      show st'.indices.set pre.length ((i : ℤ)) = _
      rw [hinv, set_append_len]
      simp
    have hpre' : ∀ x ∈ pre ++ [(i : ℤ)], x ≠ -1 := by
      intro x hx
      rcases List.mem_append.mp hx with h | h
      · exact hpre x h
      · rw [List.mem_singleton] at h; subst h; omega
    obtain ⟨hidx1, hlook1, hframe1⟩ := ih c _ (pre ++ [(i : ℤ)]) hset hpre'
    have hinv1 : (Gamut.traverse g n c
        { st' with indices := st'.indices.set pre.length ((i : ℤ)) }).indices
        = pre ++ ((i : ℤ)) :: List.replicate n (-1) := by
      rw [hidx1]
      show st'.indices.set pre.length ((i : ℤ)) = _
      rw [hinv, set_append_len]
    obtain ⟨hidx2, hlook2, hframe2⟩ := ihl (i + 1) _ ((i : ℤ)) hinv1
    refine ⟨hidx2, ?_, ?_⟩
    · intro j c' hj p v hv
      cases j with
      | zero =>
        have hc : c = c' := by simpa using hj
        subst hc
        rw [hframe2 _ ?hne]
        case hne =>
          intro j' q hj' heq
          have hcan := List.append_cancel_left heq
          rw [List.cons.injEq] at hcan
          have : i + 0 = j' := by
            have := hcan.1
            omega
          omega
        have hfin := hlook1 p v hv
        rw [show pre ++ ((i + 0 : ℕ) : ℤ) :: p.map (fun a => (a : ℤ))
            = (pre ++ [(i : ℤ)]) ++ p.map (fun a => (a : ℤ)) by simp]
        exact hfin
      | succ j' =>
        have hj2 : cs.get? j' = some c' := by simpa using hj
        have hfin := hlook2 j' c' hj2 p v hv
        rw [show i + (j' + 1) = (i + 1) + j' by omega]
        exact hfin
    · intro k hk
      rw [hframe2 _ (fun j q hj => hk j q (by omega))]
      rw [hframe1 _ ?hq]
      case hq =>
        intro q heq
        exact hk i q (le_refl i) (by simpa using heq)

/-- Specification of `traverse_ndarray`: under the invariant that `indices`
is a set prefix followed by `-1`s, the traversal restores `indices`, writes
the scalar `feito_torres` result of every leaf at the key formed by the
prefix and the leaf's multi-index, and changes no other key. -/
theorem traverse_spec (g : Gamut) : ∀ (n : ℕ) (t : Gamut.NDT n) (st : Gamut.TravSt)
    (pre : List ℤ),
    st.indices = pre ++ List.replicate n (-1) →
    (∀ x ∈ pre, x ≠ -1) →
    (Gamut.traverse g n t st).indices = st.indices ∧
    (∀ (p : List ℕ) (v : V3), Gamut.ndtAt n t p = some v →
        (Gamut.traverse g n t st).ba (pre ++ p.map (fun a => (a : ℤ)))
          = Gamut.feito_torres g v) ∧
    (∀ k : List ℤ, (∀ q : List ℕ, k ≠ pre ++ q.map (fun a => (a : ℤ))) →
        (Gamut.traverse g n t st).ba k = st.ba k) := by
  intro n
  induction n with
  | zero =>
    intro t st pre hind hpre
    have hpre_eq : st.indices = pre := by simpa using hind
    refine ⟨rfl, ?_, ?_⟩
    · intro p v hv
      cases p with
      | nil =>
        have hv' : t = v := Option.some.inj hv
        subst hv'
        show (if (pre ++ (([] : List ℕ).map (fun a => (a : ℤ)))) = st.indices
            then Gamut.feito_torres g t else st.ba _) = Gamut.feito_torres g t
        rw [if_pos (by simp [hpre_eq])]
      | cons a p => simp [Gamut.ndtAt] at hv
    · intro k hk
      show (if k = st.indices then Gamut.feito_torres g t else st.ba k) = st.ba k
      rw [if_neg (by rw [hpre_eq]; simpa using hk [])]
  | succ n ih =>
    intro t st pre hind hpre
    have hcd : Gamut.curr_dim st.indices = pre.length := by
      rw [hind]; exact curr_dim_eq pre (n + 1) hpre
    have hrep : st.indices = pre ++ (-1 : ℤ) :: List.replicate n (-1) := by
      rw [hind]; simp [List.replicate]
    rw [Gamut.traverse_succ, hcd]
    obtain ⟨⟨y', hy'⟩, hlook, hframe⟩ :=
      travFold_spec g n pre hpre ih t 0 st (-1) hrep
    refine ⟨?_, ?_, ?_⟩
    · show (Gamut.travFold g n pre.length t 0 st).indices.set pre.length (-1) = st.indices
      rw [hy', set_append_len, hrep]
    · intro p v hv
      cases p with
      | nil => simp [Gamut.ndtAt] at hv
      | cons j p =>
        show (Gamut.travFold g n pre.length t 0 st).ba _ = _
        cases hg : (t : List (Gamut.NDT n)).get? j with
        | none =>
          simp only [Gamut.ndtAt] at hv
          rw [hg] at hv
          simp at hv
        | some c =>
          simp only [Gamut.ndtAt] at hv
          rw [hg] at hv
          have hv' : Gamut.ndtAt n c p = some v := hv
          have hfin := hlook j c hg p v hv'
          simpa using hfin
    · intro k hk
      show (Gamut.travFold g n pre.length t 0 st).ba k = st.ba k
      exact hframe k (fun j q hj heq => hk (j :: q) (by simpa using heq))

/-- For a rectangular array the computed `np.shape` is the declared shape. -/
theorem ndtShape_eq : ∀ (n : ℕ) (t : Gamut.NDT n) (s : List ℕ),
    Gamut.RectShape n t s → Gamut.ndtShape n t = s := by
  intro n
  induction n with
  | zero => intro t s hs; exact hs.symm
  | succ n ih =>
    intro t s hs
    obtain ⟨s', hs1, hne, hall⟩ := hs
    rcases t with _ | ⟨c, rest⟩
    · exact absurd rfl hne
    · show (c :: rest).length :: Gamut.ndtShape n c = s
      rw [hs1]
      rw [ih c s' (hall c (List.mem_cons_self c rest))]

/-- C8: `is_inside` on a single 1-D point returns the length-1 boolean array
of its scalar `feito_torres` result, and on an array of 3-D points of
arbitrary leading shape (arbitrary rank, rectangular with positive
dimensions) returns a boolean array allocated with exactly that leading
shape whose entry at every multi-index equals the scalar `feito_torres`
result for the 3-vector at that multi-index — for shape `(A, B, 3)` the
result has shape `(A, B)` with entry `[i, j]` equal to the scalar query of
`[i, j, :]`. -/
theorem is_inside_spec (g : Gamut) :
    (∀ v : V3, Gamut.is_inside g 0 v = Sum.inl [Gamut.feito_torres g v]) ∧
    (∀ (n : ℕ) (t : Gamut.NDT (n + 1)) (s : List ℕ), Gamut.RectShape (n + 1) t s →
      ∃ ba : List ℤ → Bool,
        Gamut.is_inside g (n + 1) t = Sum.inr (s.dropLast, ba) ∧
        ∀ (p : List ℕ) (v : V3), Gamut.ndtAt (n + 1) t p = some v →
          ba (p.map (fun a => (a : ℤ))) = Gamut.feito_torres g v) := by
  refine ⟨fun v => rfl, ?_⟩
  intro n t s hs
  refine ⟨(Gamut.traverse g (n + 1) t
    ⟨List.replicate (n + 1) (-1), fun _ => false⟩).ba, ?_, ?_⟩
  · show Sum.inr ((Gamut.ndtShape (n + 1) t).dropLast, _) = _
    rw [ndtShape_eq (n + 1) t s hs]
  · intro p v hv
    have h := traverse_spec g (n + 1) t ⟨List.replicate (n + 1) (-1), fun _ => false⟩ []
      (by simp) (by simp)
    have hfin := h.2.1 p v hv
    simpa using hfin

/-- C8 witness: the specification applied to a concrete `(2, 2, 3)` array of
points over the example hull. -/
theorem is_inside_spec_witness :
    (match Gamut.is_inside tetraAsymG 2 [[⟨0,0,0⟩, ⟨5,5,5⟩], [⟨1/3,-2/3,1⟩, ⟨0,0,1⟩]] with
     | Sum.inl _ => False
     | Sum.inr pr => pr.1 = [2, 2] ∧
         pr.2 [0, 1] = Gamut.feito_torres tetraAsymG ⟨5,5,5⟩ ∧
         pr.2 [1, 0] = Gamut.feito_torres tetraAsymG ⟨1/3,-2/3,1⟩) := by
  have hrect : Gamut.RectShape 2 [[⟨0,0,0⟩, ⟨5,5,5⟩], [⟨1/3,-2/3,1⟩, ⟨0,0,1⟩]] [2, 2, 3] := by
    refine ⟨[2, 3], rfl, by simp, ?_⟩
    intro c hc
    simp only [List.mem_cons, List.mem_singleton, List.not_mem_nil, or_false] at hc
    rcases hc with rfl | rfl
    · exact ⟨[3], rfl, by simp, fun v hv => rfl⟩
    · exact ⟨[3], rfl, by simp, fun v hv => rfl⟩
  obtain ⟨ba, heq, hlook⟩ := (is_inside_spec tetraAsymG).2 1
    [[⟨0,0,0⟩, ⟨5,5,5⟩], [⟨1/3,-2/3,1⟩, ⟨0,0,1⟩]] [2, 2, 3] hrect
  rw [heq]
  refine ⟨rfl, ?_, ?_⟩
  · have h1 := hlook [0, 1] ⟨5,5,5⟩ (by rfl)
    simpa using h1
  · have h2 := hlook [1, 0] ⟨1/3,-2/3,1⟩ (by rfl)
    simpa using h2
